import Mathlib

/-!
Shallow embedding of the Cognate_Project cognate-discovery pipeline
(`find_perfect_cognates.py`, `find_near_cognates_fuzzy.py`,
`recreate_master_cognate.py`) and verification of its specification claims.

Words are modelled as `String` (Python `str`), similarity scores as `ℚ`
(Python `float`), and CSV tables as lists of structures.  Python's stable
`sorted`/`sort_values` is modelled with `List.insertionSort` (stable), and
`str.strip()`, `str.split(',')` and `int()` are modelled by the
structurally recursive functions `pyStrip`, `splitOnComma` and `pyInt?`
below so that all definitions evaluate inside the kernel.
-/

namespace Cognate

/-! Python string primitives -/

/-- Models Python `str.strip()`: remove leading and trailing whitespace. -/
def pyStrip (s : String) : String :=
  String.mk (((s.data.dropWhile Char.isWhitespace).reverse.dropWhile Char.isWhitespace).reverse)

/-- Models Python `str.split(',')` (note `"".split(',') == [""]`). -/
def splitCommaAux : List Char → List Char → List String
  | [], acc => [String.mk acc.reverse]
  | c :: cs, acc =>
    if c = ',' then String.mk acc.reverse :: splitCommaAux cs []
    else splitCommaAux cs (c :: acc)

def splitOnComma (s : String) : List String :=
  splitCommaAux s.data []

/-- Digit-sequence accumulator for `pyInt?`; fails on a non-digit. -/
def parseDigitsAux : List Char → Nat → Option Nat
  | [], acc => some acc
  | c :: cs, acc => if c.isDigit then parseDigitsAux cs (acc * 10 + (c.toNat - 48)) else none

/-- Models Python `int(s)` on an already-stripped string: an optional sign
followed by at least one digit; `none` models the raised `ValueError`. -/
def pyInt? (s : String) : Option Int :=
  match s.data with
  | [] => none
  | '-' :: cs =>
    match cs with
    | [] => none
    | _ => (parseDigitsAux cs 0).map fun n => -(n : Int)
  | '+' :: cs =>
    match cs with
    | [] => none
    | _ => (parseDigitsAux cs 0).map fun n => (n : Int)
  | cs => (parseDigitsAux cs 0).map fun n => (n : Int)

/-- Python's string comparison: strict lexicographic order on the code-point
sequences.  (Defined directly on `List Char` so that it evaluates inside
the kernel.) -/
def charListLt : List Char → List Char → Bool
  | _, [] => false
  | [], _ :: _ => true
  | a :: as, b :: bs => if a < b then true else if b < a then false else charListLt as bs

/-- Python's `≤` on strings, as used by `sorted` and by pandas
`sort_values` on string columns. -/
def strLe (a b : String) : Prop := charListLt b.data a.data = false

instance : DecidableRel strLe := fun a b =>
  inferInstanceAs (Decidable (charListLt b.data a.data = false))


/-! `find_near_cognates_fuzzy.py`: pattern-delta extraction

`detect_delta` works on the character sequences of the two words, so the
helpers below are stated on `List Char`.
-/

/-- Embeds `longest_common_prefix(a, b)`: the number of equal leading
characters of the two words. -/
def longest_common_prefix_len : List Char → List Char → Nat
  | a :: as, b :: bs => if a = b then longest_common_prefix_len as bs + 1 else 0
  | _, _ => 0

/-- Embeds `longest_common_suffix(a, b)`: the number of equal trailing
characters, i.e. the longest common prefix of the reversals. -/
def longest_common_suffix_len (a b : List Char) : Nat :=
  longest_common_prefix_len a.reverse b.reverse

/-- The overlap-clamped suffix length of `detect_delta`: if
`prefix_len + suffix_len > max_common` the suffix is shrunk to
`max_common - prefix_len` (Python `max(0, ...)` is automatic in `Nat`). -/
def clampedSuffixLen (a b : List Char) : Nat :=
  let p := longest_common_prefix_len a b
  let s := longest_common_suffix_len a b
  let maxCommon := min a.length b.length
  if maxCommon < p + s then maxCommon - p else s

/-- Python slice end `len(a) - suffix_len if suffix_len > 0 else len(a)`. -/
def deltaSliceEnd (len s : Nat) : Nat :=
  if 0 < s then len - s else len

/-- The slice `a_mid = a[prefix_len : len(a) - suffix_len if suffix_len > 0 else len(a)]`. -/
def aMid (a b : List Char) : List Char :=
  (a.take (deltaSliceEnd a.length (clampedSuffixLen a b))).drop (longest_common_prefix_len a b)

/-- The slice `b_mid = b[prefix_len : len(b) - suffix_len if suffix_len > 0 else len(b)]`. -/
def bMid (a b : List Char) : List Char :=
  (b.take (deltaSliceEnd b.length (clampedSuffixLen a b))).drop (longest_common_prefix_len a b)

/-- Embeds `detect_delta(a, b)`. -/
def detect_delta (a b : List Char) : String :=
  if a = [] ∨ b = [] then ""
  else
    let am := aMid a b
    let bm := bMid a b
    if am ≠ [] ∨ bm ≠ [] then
      "delta: '" ++ String.mk am ++ "' vs '" ++ String.mk bm ++ "'"
    else if a ≠ b then
      "delta_whole: '" ++ String.mk a ++ "' vs '" ++ String.mk b ++ "'"
    else ""

/-! `find_near_cognates_fuzzy.py`: loading and fuzzy matching -/

/-- One CSV row of `raw_data.csv` as seen by `csv.DictReader`; a missing
field (`row.get(...) or ""`) is modelled as `""`. -/
structure RawRow where
  language : String
  rank : String
  word : String
deriving DecidableEq

/-- The parse of one raw row: `None` when the row is skipped (blank
language, unparseable rank, or blank word). -/
def parsedEntry (r : RawRow) : Option (String × Int × String) :=
  let lang := pyStrip r.language
  if lang = "" then none
  else
    match pyInt? (pyStrip r.rank) with
    | none => none
    | some k =>
      let w := pyStrip r.word
      if w = "" then none else some (lang, k, w)

/-- The result triple of `load_raw_data` in `find_near_cognates_fuzzy.py`. -/
structure RawData where
  by_lang_rank : String → Int → String
  languages : List String
  max_rank : Int

/-- The loop body of `load_raw_data`: record the row's word under its
`(language, rank)` key, add the language, and bump `max_rank` when the new
rank exceeds it. -/
def loadStep (acc : RawData) (r : RawRow) : RawData :=
  match parsedEntry r with
  | none => acc
  | some e =>
    { by_lang_rank := fun l i => if l = e.1 ∧ i = e.2.1 then e.2.2 else acc.by_lang_rank l i
      languages := if e.1 ∈ acc.languages then acc.languages else acc.languages ++ [e.1]
      max_rank := if acc.max_rank < e.2.1 then e.2.1 else acc.max_rank }

/-- Embeds `load_raw_data(path)` of `find_near_cognates_fuzzy.py`, acting on
the parsed CSV rows: builds the `(language, rank) → word` map (later rows
overwrite earlier ones, missing keys give `""`), the set of languages, and
`max_rank`, the maximum rank value observed. -/
def load_raw_data (rows : List RawRow) : RawData :=
  rows.foldl loadStep ⟨fun _ _ => "", [], 0⟩

/-- Raw-data rows with differing per-language maximum ranks, used to
separate the spec's description of `maxRank` from the implementation. -/
def exRawRows : List RawRow :=
  [⟨"es", "1", "casa"⟩, ⟨"es", "2", "perro"⟩, ⟨"fr", "1", "maison"⟩]

/-- One emitted near-cognate row
`[rank, english_meaning, lang_a, word_a, lang_b, word_b, sim, pattern]`.
`sim` holds the raw similarity ratio; the CSV serialisation rounds it to
three decimals (see `round3`). -/
structure NearRow where
  rank : Nat
  english_meaning : String
  lang_a : String
  word_a : String
  lang_b : String
  word_b : String
  sim : ℚ
  pattern : String
deriving DecidableEq

/-- Embeds `itertools.combinations(entries, 2)` in its iteration order. -/
def combinations2 {α : Type} : List α → List (α × α)
  | [] => []
  | x :: xs => (xs.map fun y => (x, y)) ++ combinations2 xs

/-- The ranks iterated by `find_near_cognates`:
`range(1, min(len(english_by_rank), max_rank_data) + 1)`. -/
def nearRanks (english_by_rank : List String) (max_rank_data : Int) : List Nat :=
  List.range' 1 (min (english_by_rank.length : Int) max_rank_data).toNat

/-- The per-rank entry list of `find_near_cognates`: English first, then the
sorted language codes with their non-empty words, all filtered by the
4-character minimum length guard. -/
def rankEntries (english_by_rank : List String) (by_lang_rank : String → Int → String)
    (languages : List String) (rank : Nat) : List (String × String) :=
  let em := pyStrip (english_by_rank.getD (rank - 1) "")
  let base := ("en", em) ::
    ((languages.insertionSort strLe).filterMap fun lc =>
      let w := pyStrip (by_lang_rank lc (rank : Int))
      if w = "" then none else some (lc, w))
  base.filter fun e => decide (4 ≤ e.2.length)

/-- The body of `find_near_cognates` for a single rank. -/
def nearRowsAtRank (english_by_rank : List String) (by_lang_rank : String → Int → String)
    (languages : List String) (ratioFn : String → String → ℚ) (threshold : ℚ)
    (rank : Nat) : List NearRow :=
  let em := pyStrip (english_by_rank.getD (rank - 1) "")
  if em.length < 1 then []
  else
    let entries := rankEntries english_by_rank by_lang_rank languages rank
    if entries.length < 2 then []
    else
      (combinations2 entries).filterMap fun pq =>
        let wa := pq.1.2
        let wb := pq.2.2
        if wa = wb then none
        else if wa.length < 4 ∨ wb.length < 4 then none
        else
          let sim := ratioFn wa wb
          if sim ≤ threshold ∨ 1 ≤ sim then none
          else some ⟨rank, em, pq.1.1, wa, pq.2.1, wb, sim, detect_delta wa.data wb.data⟩

/-- Embeds `find_near_cognates`.  The similarity computation
(`difflib.SequenceMatcher(None, a, b).ratio()`) is abstracted as the
parameter `ratioFn`, so every theorem below holds for the actual difflib
ratio in particular. -/
def find_near_cognates (english_by_rank : List String) (by_lang_rank : String → Int → String)
    (languages : List String) (max_rank_data : Int) (ratioFn : String → String → ℚ)
    (threshold : ℚ) : List NearRow :=
  (nearRanks english_by_rank max_rank_data).flatMap
    (nearRowsAtRank english_by_rank by_lang_rank languages ratioFn threshold)

/-- The largest rank a given language actually uses among the parsed
entries (0 when it has none). -/
def perLanguageMaxRank (entries : List (String × Int × String)) (l : String) : Int :=
  (entries.filter fun e => decide (e.1 = l)).foldl (fun m e => max m e.2.1) 0

/-- Modelled from the spec: `maxRank()` described as "the minimum of all
per-language maximum ranks actually used" (spec §4.1); this definition
exists only to compare that description against the `max_rank` that
`load_raw_data` really returns. -/
def maxRankSpec (rows : List RawRow) : Int :=
  let entries := rows.filterMap parsedEntry
  match (entries.map fun e => e.1).dedup with
  | [] => 0
  | l :: ls =>
    ls.foldl (fun m l' => min m (perLanguageMaxRank entries l')) (perLanguageMaxRank entries l)

/-! `find_perfect_cognates.py` -/

/-- The fixed target-language table `LANGUAGES`. -/
def LANGUAGES : List (String × String) :=
  [("en", "English"), ("es", "Spanish"), ("fr", "French"), ("it", "Italian"),
   ("pt", "Portuguese"), ("ro", "Romanian"), ("ca", "Catalan"), ("gl", "Galician")]

/-- One emitted perfect-cognate row
`[rank, english_meaning, word, languages_found, count]`; `languages_found`
is kept as the sorted code list whose CSV form is `",".join(...)`. -/
structure PerfectRow where
  rank : Nat
  english_meaning : String
  word : String
  languages_found : List String
  count : Nat
deriving DecidableEq

/-- Embeds `word_langs[word].append(code)` on an insertion-ordered
association list, the behaviour of the Python `defaultdict(list)`. -/
def addLang (wl : List (String × List String)) (w c : String) : List (String × List String) :=
  match wl with
  | [] => [(w, [c])]
  | (w', cs) :: rest =>
    if w' = w then (w', cs ++ [c]) :: rest else (w', cs) :: addLang rest w c

/-- The loop body of the per-rank grouping in
`find_universal_perfect_cognates`: skip `"en"`, then record a non-empty
stripped word under the language's code. -/
def perfectStep (by_lang_rank : String → Int → String) (rank : Nat)
    (wl : List (String × List String)) (p : String × String) :
    List (String × List String) :=
  if p.1 = "en" then wl
  else
    let w := pyStrip (by_lang_rank p.1 (rank : Int))
    if w = "" then wl else addLang wl w p.1

/-- The `word → contributing language codes` mapping that
`find_universal_perfect_cognates` builds for one rank: English first, then
each non-English language of `LANGUAGES` with a non-empty word. -/
def wordLangsAtRank (by_lang_rank : String → Int → String) (rank : Nat) (em : String) :
    List (String × List String) :=
  LANGUAGES.foldl (perfectStep by_lang_rank rank) (addLang [] em "en")

/-- The per-key lookup in the word→languages association list (unique keys),
the reading side of the Python `defaultdict`. -/
def getCodes : List (String × List String) → String → List String
  | [], _ => []
  | wc :: rest, w => if wc.1 = w then wc.2 else getCodes rest w

/-- The rows `find_universal_perfect_cognates` emits for one rank: one row
per word contributed by at least two languages, in insertion order. -/
def perfectRowsAtRank (english_by_rank : List String) (by_lang_rank : String → Int → String)
    (rank : Nat) : List PerfectRow :=
  let em := pyStrip (english_by_rank.getD (rank - 1) "")
  if em = "" then []
  else
    (wordLangsAtRank by_lang_rank rank em).filterMap fun wc =>
      if wc.2.length < 2 then none
      else some ⟨rank, em, wc.1, wc.2.insertionSort strLe, wc.2.length⟩

/-- Embeds `find_universal_perfect_cognates(english_by_rank, by_lang_rank)`. -/
def find_universal_perfect_cognates (english_by_rank : List String)
    (by_lang_rank : String → Int → String) : List PerfectRow :=
  (List.range' 1 english_by_rank.length).flatMap
    (perfectRowsAtRank english_by_rank by_lang_rank)

/-- The word a language code contributes at a rank: the stripped reference
word for `"en"`, the stripped lexicon word otherwise. -/
def wordAtRank (english_by_rank : List String) (by_lang_rank : String → Int → String)
    (code : String) (rank : Nat) : String :=
  if code = "en" then pyStrip (english_by_rank.getD (rank - 1) "")
  else pyStrip (by_lang_rank code (rank : Int))

/-! `recreate_master_cognate.py` -/

/-- One row of `perfect_cognates_universal.csv` as read by the merge
pipeline (`Languages_Found` is the comma-joined code string). -/
structure PerfectCsvRow where
  rank : Nat
  english_meaning : String
  word : String
  languages_found : String
  count : Nat
deriving DecidableEq

/-- One row of `near_cognates_discovered.csv` as read by the merge
pipeline. -/
structure NearCsvRow where
  rank : Nat
  english_meaning : String
  lang_a : String
  word_a : String
  lang_b : String
  word_b : String
  similarity_score : ℚ
  pattern : String
deriving DecidableEq

/-- One row of the master schema (before/after the audit column is set). -/
structure MRow where
  rank : Nat
  english_reference : String
  word_a : String
  word_b : String
  lang_a : String
  lang_b : String
  match_type : String
  similarity_score : ℚ
  audit_status : String
deriving DecidableEq

/-- The index pairs `(i, j)` with `i < j < n`, in the iteration order of the
nested `for i ... for j in range(i + 1, ...)` loops. -/
def indexPairs (n : Nat) : List (Nat × Nat) :=
  (List.range n).flatMap fun i => (List.range' (i + 1) (n - (i + 1))).map fun j => (i, j)

/-- Embeds the Perfect-record expansion of `recreate_master_cognate`: one
master row per index pair of the split `Languages_Found` string. -/
def expandPerfect (p : PerfectCsvRow) : List MRow :=
  let languages := splitOnComma p.languages_found
  (indexPairs languages.length).map fun ij =>
    { rank := p.rank
      english_reference := p.english_meaning
      word_a := p.word
      word_b := p.word
      lang_a := pyStrip (languages.getD ij.1 "")
      lang_b := pyStrip (languages.getD ij.2 "")
      match_type := "Perfect"
      similarity_score := 1
      audit_status := "" }

/-- Embeds the Near-record renaming/projection of
`recreate_master_cognate`. -/
def nearToMaster (r : NearCsvRow) : MRow :=
  { rank := r.rank
    english_reference := r.english_meaning
    word_a := r.word_a
    word_b := r.word_b
    lang_a := r.lang_a
    lang_b := r.lang_b
    match_type := "Near"
    similarity_score := r.similarity_score
    audit_status := "" }

/-- Embeds `audit_logic(row)`. -/
def audit_logic (r : MRow) : String :=
  if r.match_type = "Perfect" then "OK"
  else if r.match_type = "Near" then
    if r.word_a.length ≤ 2 ∨ r.word_b.length ≤ 2 ∨ r.similarity_score < 7/10 then
      "Manual Review Needed"
    else "OK"
  else "OK"

/-- Embeds the `Pair_Key` column:
`f"{sorted([lang_a, lang_b])[0]}-{sorted([lang_a, lang_b])[1]}-{english_reference}"`. -/
def pairKey (r : MRow) : String :=
  let lo := if charListLt r.lang_b.data r.lang_a.data then r.lang_b else r.lang_a
  let hi := if charListLt r.lang_b.data r.lang_a.data then r.lang_a else r.lang_b
  lo ++ "-" ++ hi ++ "-" ++ r.english_reference

/-- Comparison of `sort_values('Match_Type', ascending=False)`: `r1` may come
before `r2` when its match type is lexicographically ≥. -/
def mtGe (r1 r2 : MRow) : Prop := strLe r2.match_type r1.match_type

instance : DecidableRel mtGe := fun r1 r2 =>
  inferInstanceAs (Decidable (strLe r2.match_type r1.match_type))

/-- Comparison of `sort_values('Rank')`. -/
def rankLe (r1 r2 : MRow) : Prop := r1.rank ≤ r2.rank

instance : DecidableRel rankLe := fun r1 r2 => inferInstanceAs (Decidable (r1.rank ≤ r2.rank))

/-- Embeds `drop_duplicates(subset=['Pair_Key'], keep='first')`: keep a row
iff its key has not been seen earlier. -/
def dedupKeepFirst {α β : Type} [DecidableEq β] (key : α → β) : List α → List β → List α
  | [], _ => []
  | x :: xs, seen =>
    if key x ∈ seen then dedupKeepFirst key xs seen
    else x :: dedupKeepFirst key xs (key x :: seen)

/-- Embeds `pd.concat([perfect_transformed, near_transformed])`. -/
def combinedRows (perfect : List PerfectCsvRow) (near : List NearCsvRow) : List MRow :=
  perfect.flatMap expandPerfect ++ near.map nearToMaster

/-- The combined table with its `Audit_Status` column applied. -/
def auditedRows (perfect : List PerfectCsvRow) (near : List NearCsvRow) : List MRow :=
  (combinedRows perfect near).map fun r => { r with audit_status := audit_logic r }

/-- The combined table sorted so `Perfect` rows precede `Near` rows. -/
def sortedByMatchType (perfect : List PerfectCsvRow) (near : List NearCsvRow) : List MRow :=
  (auditedRows perfect near).insertionSort mtGe

/-- Embeds `recreate_master_cognate(perfect_df, near_df)`: normalize,
audit, sort `Perfect` first, deduplicate by pair key keeping the first
row, and finally sort by rank. -/
def recreate_master_cognate (perfect : List PerfectCsvRow) (near : List NearCsvRow) :
    List MRow :=
  (dedupKeepFirst pairKey (sortedByMatchType perfect near) []).insertionSort rankLe

/-- The value `float(f"{sim:.3f}")`: the similarity as it survives the CSV
round trip between the fuzzy detector and the merge pipeline. -/
def round3 (q : ℚ) : ℚ := (round (q * 1000) : ℤ) / 1000

/-- The rational 3/4 in lowest-terms constructor form (kernel-evaluable). -/
def q34 : ℚ := ⟨3, 4, by decide, by norm_num⟩

/-- The rational 7/10 (the detector threshold) in lowest-terms constructor
form (kernel-evaluable). -/
def q710 : ℚ := ⟨7, 10, by decide, by norm_num⟩

/-- The master-schema row the merge pipeline builds from a detector-emitted
near-cognate row (its similarity having passed through the CSV's
three-decimal formatting). -/
def masterOfNear (r : NearRow) : MRow :=
  { rank := r.rank
    english_reference := r.english_meaning
    word_a := r.word_a
    word_b := r.word_b
    lang_a := r.lang_a
    lang_b := r.lang_b
    match_type := "Near"
    similarity_score := round3 r.sim
    audit_status := "" }

/-! Helper lemmas: common prefixes and suffixes -/

theorem charListLt_asymm : ∀ {a b : List Char},
    charListLt a b = true → charListLt b a = false
  | _, [], h => by simp [charListLt] at h
  | [], _ :: _, _ => rfl
  | a :: as, b :: bs, h => by
    simp only [charListLt] at h ⊢
    rcases lt_trichotomy a b with hab | hab | hab
    · simp [hab, asymm hab, lt_asymm hab]
    · subst hab
      simp only [lt_irrefl, if_false] at h ⊢
      exact charListLt_asymm h
    · simp [hab, asymm hab, lt_asymm hab] at h

theorem charListLt_eq_of_not : ∀ {a b : List Char},
    charListLt a b = false → charListLt b a = false → a = b
  | [], [], _, _ => rfl
  | _ :: _, [], _, h2 => by simp [charListLt] at h2
  | [], _ :: _, h1, _ => by simp [charListLt] at h1
  | a :: as, b :: bs, h1, h2 => by
    simp only [charListLt] at h1 h2
    rcases lt_trichotomy a b with hab | hab | hab
    · simp [hab] at h1
    · subst hab
      simp only [lt_irrefl, if_false] at h1 h2
      exact congrArg (a :: ·) (charListLt_eq_of_not h1 h2)
    · simp [hab, asymm hab, lt_asymm hab] at h2

theorem charListLt_trans : ∀ {a b c : List Char},
    charListLt a b = true → charListLt b c = true → charListLt a c = true
  | _, _, [], _, h2 => by simp [charListLt] at h2
  | _, [], _ :: _, h1, _ => by simp [charListLt] at h1
  | [], _ :: _, _ :: _, _, _ => rfl
  | a :: as, b :: bs, c :: cs, h1, h2 => by
    simp only [charListLt] at h1 h2 ⊢
    rcases lt_trichotomy a b with hab | hab | hab
    · rcases lt_trichotomy b c with hbc | hbc | hbc
      · have hac : a < c := lt_trans hab hbc
        simp [hac]
      · subst hbc; simp [hab]
      · simp [hbc, asymm hbc, lt_asymm hbc] at h2
    · subst hab
      simp only [lt_irrefl, if_false] at h1
      rcases lt_trichotomy a c with hac | hac | hac
      · simp [hac]
      · subst hac
        simp only [lt_irrefl, if_false] at h2 ⊢
        exact charListLt_trans h1 h2
      · simp [hac, asymm hac, lt_asymm hac] at h2
    · simp [hab, asymm hab, lt_asymm hab] at h1

instance : IsTotal String strLe :=
  ⟨fun a b => by
    unfold strLe
    rcases h : charListLt b.data a.data with _ | _
    · exact Or.inl rfl
    · exact Or.inr (charListLt_asymm h)⟩

instance : IsTrans String strLe :=
  ⟨fun a b c h1 h2 => by
    unfold strLe at h1 h2 ⊢
    rcases hca : charListLt c.data a.data with _ | _
    · rfl
    · rcases hab : charListLt a.data b.data with _ | _
      · have := charListLt_eq_of_not hab h1
        rw [this] at hca
        rw [hca] at h2
        exact h2
      · have := charListLt_trans hca hab
        rw [this] at h2
        exact h2⟩

instance : IsTotal MRow mtGe :=
  ⟨fun a b => IsTotal.total (r := strLe) b.match_type a.match_type⟩

instance : IsTrans MRow mtGe :=
  ⟨fun _ _ _ h1 h2 => IsTrans.trans (r := strLe) _ _ _ h2 h1⟩

instance : IsTotal MRow rankLe := ⟨fun a b => Nat.le_total a.rank b.rank⟩

instance : IsTrans MRow rankLe := ⟨fun _ _ _ h1 h2 => le_trans h1 h2⟩


theorem lcp_le_left : ∀ a b : List Char, longest_common_prefix_len a b ≤ a.length
  | [], _ => by simp [longest_common_prefix_len]
  | _ :: _, [] => by simp [longest_common_prefix_len]
  | a :: as, b :: bs => by
    simp only [longest_common_prefix_len, List.length_cons]
    split
    · exact Nat.succ_le_succ (lcp_le_left as bs)
    · exact Nat.zero_le _

theorem lcp_le_right : ∀ a b : List Char, longest_common_prefix_len a b ≤ b.length
  | [], _ => by simp [longest_common_prefix_len]
  | _ :: _, [] => by simp [longest_common_prefix_len]
  | a :: as, b :: bs => by
    simp only [longest_common_prefix_len, List.length_cons]
    split
    · exact Nat.succ_le_succ (lcp_le_right as bs)
    · exact Nat.zero_le _

theorem take_lcp_eq : ∀ a b : List Char,
    a.take (longest_common_prefix_len a b) = b.take (longest_common_prefix_len a b)
  | [], _ => by simp [longest_common_prefix_len]
  | _ :: _, [] => by simp [longest_common_prefix_len]
  | a :: as, b :: bs => by
    simp only [longest_common_prefix_len]
    split
    · next h => simp [List.take_succ_cons, h, take_lcp_eq as bs]
    · simp

theorem take_eq_of_le_lcp {a b : List Char} {s : Nat}
    (h : s ≤ longest_common_prefix_len a b) : a.take s = b.take s := by
  have h1 : a.take s = (a.take (longest_common_prefix_len a b)).take s := by
    rw [List.take_take, Nat.min_eq_left h]
  have h2 : b.take s = (b.take (longest_common_prefix_len a b)).take s := by
    rw [List.take_take, Nat.min_eq_left h]
  rw [h1, h2, take_lcp_eq a b]

theorem clampedSuffixLen_le :
    ∀ a b : List Char, clampedSuffixLen a b ≤ longest_common_suffix_len a b := by
  intro a b
  simp only [clampedSuffixLen]
  split
  · next h => omega
  · exact le_rfl

theorem lcp_add_clamped_le (a b : List Char) :
    longest_common_prefix_len a b + clampedSuffixLen a b ≤ min a.length b.length := by
  have hp1 := lcp_le_left a b
  have hp2 := lcp_le_right a b
  simp only [clampedSuffixLen]
  split
  · next h => omega
  · next h =>
    rw [Nat.not_lt] at h
    omega

theorem drop_clamped_eq {a b : List Char} {s : Nat}
    (h : s ≤ longest_common_suffix_len a b) :
    a.drop (a.length - s) = b.drop (b.length - s) := by
  have hrev : a.reverse.take s = b.reverse.take s := by
    apply take_eq_of_le_lcp
    exact h
  have ha : a.reverse.take s = (a.drop (a.length - s)).reverse := by
    rw [List.take_reverse]
  have hb : b.reverse.take s = (b.drop (b.length - s)).reverse := by
    rw [List.take_reverse]
  rw [ha, hb] at hrev
  exact List.reverse_injective hrev

theorem take_mid_drop {α : Type} (l : List α) (i j : Nat) (hij : i ≤ j)
    (_hj : j ≤ l.length) : l.take i ++ (l.take j).drop i ++ l.drop j = l := by
  have h1 : l.take i = (l.take j).take i := by
    rw [List.take_take, Nat.min_eq_left hij]
  conv_rhs => rw [← List.take_append_drop j l, ← List.take_append_drop i (l.take j)]
  rw [h1, List.append_assoc]

theorem aMid_eq (a b : List Char) :
    aMid a b =
      (a.take (a.length - clampedSuffixLen a b)).drop (longest_common_prefix_len a b) := by
  unfold aMid deltaSliceEnd
  rcases Nat.eq_zero_or_pos (clampedSuffixLen a b) with h | h
  · simp [h]
  · simp [h]

theorem bMid_eq (a b : List Char) :
    bMid a b =
      (b.take (b.length - clampedSuffixLen a b)).drop (longest_common_prefix_len a b) := by
  unfold bMid deltaSliceEnd
  rcases Nat.eq_zero_or_pos (clampedSuffixLen a b) with h | h
  · simp [h]
  · simp [h]

theorem mids_nonempty_of_ne {a b : List Char} (hab : a ≠ b) :
    aMid a b ≠ [] ∨ bMid a b ≠ [] := by
  by_contra hcon
  push_neg at hcon
  obtain ⟨h1, h2⟩ := hcon
  have hps := lcp_add_clamped_le a b
  have hlen1 : (aMid a b).length = 0 := by rw [h1]; rfl
  have hlen2 : (bMid a b).length = 0 := by rw [h2]; rfl
  rw [aMid_eq, List.length_drop, List.length_take] at hlen1
  rw [bMid_eq, List.length_drop, List.length_take] at hlen2
  have haeq : a.length = longest_common_prefix_len a b + clampedSuffixLen a b := by omega
  have hbeq : b.length = longest_common_prefix_len a b + clampedSuffixLen a b := by omega
  have hta := take_lcp_eq a b
  have hda := drop_clamped_eq (clampedSuffixLen_le a b)
  have hpa : a.drop (longest_common_prefix_len a b) =
      a.drop (a.length - clampedSuffixLen a b) := by
    congr 1
    omega
  have hpb : b.drop (b.length - clampedSuffixLen a b) =
      b.drop (longest_common_prefix_len a b) := by
    congr 1
    omega
  have : a = b := by
    calc a = a.take (longest_common_prefix_len a b) ++ a.drop (longest_common_prefix_len a b) :=
          (List.take_append_drop _ a).symm
      _ = b.take (longest_common_prefix_len a b) ++ b.drop (b.length - clampedSuffixLen a b) := by
          rw [hta, hpa, hda]
      _ = b.take (longest_common_prefix_len a b) ++ b.drop (longest_common_prefix_len a b) := by
          rw [hpb]
      _ = b := List.take_append_drop _ b
  exact hab this

/-- Claim C6: `detect_delta` strips the longest common prefix and the longest
common suffix of the two words, clamping so they do not overlap by
shrinking the suffix (the prefix is kept at its full length, the clamped
suffix never exceeds the true common suffix, and together they fit inside
the shorter word); and for every pair of non-empty words the recovered
common prefix, the extracted middle fragment, and the recovered common
suffix concatenate to reconstruct each original word exactly. -/
theorem detect_delta_strips_and_reconstructs (a b : List Char) (_ha : a ≠ []) (_hb : b ≠ []) :
    longest_common_prefix_len a b + clampedSuffixLen a b ≤ min a.length b.length ∧
    clampedSuffixLen a b ≤ longest_common_suffix_len a b ∧
    a.take (longest_common_prefix_len a b) = b.take (longest_common_prefix_len a b) ∧
    a.drop (a.length - clampedSuffixLen a b) = b.drop (b.length - clampedSuffixLen a b) ∧
    a.take (longest_common_prefix_len a b) ++ aMid a b ++
      a.drop (a.length - clampedSuffixLen a b) = a ∧
    b.take (longest_common_prefix_len a b) ++ bMid a b ++
      b.drop (b.length - clampedSuffixLen a b) = b := by
  have hps := lcp_add_clamped_le a b
  refine ⟨hps, clampedSuffixLen_le a b, take_lcp_eq a b,
    drop_clamped_eq (clampedSuffixLen_le a b), ?_, ?_⟩
  · rw [aMid_eq]
    exact take_mid_drop a _ _ (by omega) (by omega)
  · rw [bMid_eq]
    exact take_mid_drop b _ _ (by omega) (by omega)

/-- Witness for C6 at the words `"nacion"` and `"nacao"`. -/
theorem detect_delta_strips_and_reconstructs_witness :
    "nacion".data ≠ [] ∧ "nacao".data ≠ [] ∧
    "nacion".data.take (longest_common_prefix_len "nacion".data "nacao".data) ++
      aMid "nacion".data "nacao".data ++
      "nacion".data.drop
        ("nacion".data.length - clampedSuffixLen "nacion".data "nacao".data) =
      "nacion".data :=
  ⟨by decide, by decide,
    (detect_delta_strips_and_reconstructs "nacion".data "nacao".data
      (by decide) (by decide)).2.2.2.2.1⟩

/-- Claim C9: For every pair of non-empty, distinct words, `detect_delta`
yields at least one non-empty middle fragment and returns the
`"delta: ..."` description; the `"delta_whole"` fallback branch is
unreachable for non-empty distinct inputs. -/
theorem detect_delta_delta_branch (a b : List Char) (ha : a ≠ []) (hb : b ≠ [])
    (hab : a ≠ b) :
    (aMid a b ≠ [] ∨ bMid a b ≠ []) ∧
    detect_delta a b =
      "delta: '" ++ String.mk (aMid a b) ++ "' vs '" ++ String.mk (bMid a b) ++ "'" := by
  have hmids := mids_nonempty_of_ne hab
  refine ⟨hmids, ?_⟩
  simp only [detect_delta]
  rw [if_neg (by simp [ha, hb]), if_pos hmids]

/-- Witness for C9 at the words `"nacion"` and `"nacao"`. -/
theorem detect_delta_delta_branch_witness :
    detect_delta "nacion".data "nacao".data =
      "delta: '" ++ String.mk (aMid "nacion".data "nacao".data) ++ "' vs '" ++
        String.mk (bMid "nacion".data "nacao".data) ++ "'" :=
  (detect_delta_delta_branch "nacion".data "nacao".data
    (by decide) (by decide) (by decide)).2

/-! C8: audit classification -/

/-- Claim C8: `audit_logic` assigns `OK` to every Perfect row, and assigns
`Manual Review Needed` to a Near row if and only if either word's length is
≤ 2 characters or its similarity score is < 0.7; every other Near row is
`OK`.  In particular a Near row with `word_a` of length 2 is flagged for
manual review regardless of similarity score. -/
theorem audit_logic_spec (r : MRow) :
    (r.match_type = "Perfect" → audit_logic r = "OK") ∧
    (r.match_type = "Near" →
      ((audit_logic r = "Manual Review Needed" ↔
        (r.word_a.length ≤ 2 ∨ r.word_b.length ≤ 2 ∨ r.similarity_score < 7/10)) ∧
       (¬(r.word_a.length ≤ 2 ∨ r.word_b.length ≤ 2 ∨ r.similarity_score < 7/10) →
        audit_logic r = "OK"))) ∧
    (r.match_type = "Near" → r.word_a.length = 2 →
      audit_logic r = "Manual Review Needed") := by
  unfold audit_logic
  refine ⟨fun h => by simp [h], fun h => ?_, fun h h2 => ?_⟩
  · have hne : r.match_type ≠ "Perfect" := by rw [h]; decide
    by_cases hc : r.word_a.length ≤ 2 ∨ r.word_b.length ≤ 2 ∨ r.similarity_score < 7/10
    · simp [hne, h, hc]
    · simp [hne, h, hc]
  · have hne : r.match_type ≠ "Perfect" := by rw [h]; decide
    have hc : r.word_a.length ≤ 2 ∨ r.word_b.length ≤ 2 ∨ r.similarity_score < 7/10 :=
      Or.inl (by omega)
    simp [hne, h, hc]

/-- Witness for C8: a Near row with a 2-character `word_a` and a high
similarity score is still flagged for manual review. -/
theorem audit_logic_spec_witness :
    audit_logic ⟨1, "water", "ab", "abcd", "es", "fr", "Near", 9/10, ""⟩ =
      "Manual Review Needed" :=
  (audit_logic_spec ⟨1, "water", "ab", "abcd", "es", "fr", "Near", 9/10, ""⟩).2.2
    (by decide) (by decide)

/-! C7: expansion of Perfect records into pairwise master rows -/

theorem sum_map_add_one (l : List Nat) (g : Nat → Nat) :
    (l.map (fun i => g i + 1)).sum = (l.map g).sum + l.length := by
  induction l with
  | nil => rfl
  | cons x xs ih =>
    simp only [List.map_cons, List.sum_cons, List.length_cons, ih]
    omega

theorem sum_range_sub_succ (n : Nat) :
    (((List.range n).map fun i => n - (i + 1)).sum) * 2 = n * (n - 1) := by
  induction n with
  | zero => rfl
  | succ m ih =>
    rw [List.range_succ, List.map_append, List.sum_append]
    have hmap : ((List.range m).map fun i => m + 1 - (i + 1)) =
        (List.range m).map fun i => (m - (i + 1)) + 1 := by
      apply List.map_congr_left
      intro i hi
      have : i < m := List.mem_range.mp hi
      omega
    rw [hmap, sum_map_add_one, List.length_range]
    simp only [List.map_cons, List.map_nil, List.sum_cons, List.sum_nil]
    rcases m with _ | k
    · rfl
    · rw [show k + 1 + 1 - (k + 1 + 1) = 0 from by omega]
      have h1 : (k + 1 + 1) * (k + 1 + 1 - 1) = (k + 1) * (k + 1 - 1) + (k + 1) * 2 := by
        rw [show k + 1 + 1 - 1 = k + 1 from by omega, show k + 1 - 1 = k from by omega]
        ring
      rw [h1, ← ih]
      ring

theorem indexPairs_length (n : Nat) : (indexPairs n).length = n * (n - 1) / 2 := by
  have h2 : (indexPairs n).length * 2 = n * (n - 1) := by
    unfold indexPairs
    rw [List.flatMap, List.length_flatten, List.map_map]
    have : (List.map (List.length ∘ fun i => (List.range' (i + 1) (n - (i + 1))).map fun j => (i, j))
        (List.range n)) = (List.range n).map fun i => n - (i + 1) := by
      apply List.map_congr_left
      intro i _
      simp [List.length_map, List.length_range']
    rw [this, sum_range_sub_succ]
  omega

theorem mem_indexPairs {n i j : Nat} (hij : i < j) (hjn : j < n) : (i, j) ∈ indexPairs n := by
  unfold indexPairs
  rw [List.mem_flatMap]
  refine ⟨i, List.mem_range.mpr (lt_trans hij hjn), ?_⟩
  rw [List.mem_map]
  refine ⟨j, ?_, rfl⟩
  rw [List.mem_range']
  exact ⟨j - (i + 1), by omega, by omega⟩

/-- Claim C7: Merge normalization expands every Perfect record whose
`Languages_Found` string splits into `n` components into exactly
`n * (n - 1) / 2` master rows, each with `word_b = word_a = Word`,
`match_type = "Perfect"`, `similarity_score = 1.0`, and the record's rank
and English reference; and every index pair `i < j` of components yields a
row carrying that unordered language pair. -/
theorem expandPerfect_spec (p : PerfectCsvRow) :
    (expandPerfect p).length =
      (splitOnComma p.languages_found).length *
        ((splitOnComma p.languages_found).length - 1) / 2 ∧
    (∀ m ∈ expandPerfect p,
      m.word_a = p.word ∧ m.word_b = m.word_a ∧ m.match_type = "Perfect" ∧
      m.similarity_score = 1 ∧ m.rank = p.rank ∧ m.english_reference = p.english_meaning) ∧
    (∀ i j : Nat, i < j → j < (splitOnComma p.languages_found).length →
      ∃ m ∈ expandPerfect p,
        m.lang_a = pyStrip ((splitOnComma p.languages_found).getD i "") ∧
        m.lang_b = pyStrip ((splitOnComma p.languages_found).getD j "")) := by
  refine ⟨?_, ?_, ?_⟩
  · unfold expandPerfect
    rw [List.length_map, indexPairs_length]
  · intro m hm
    simp only [expandPerfect, List.mem_map] at hm
    obtain ⟨ij, _, rfl⟩ := hm
    exact ⟨rfl, rfl, rfl, rfl, rfl, rfl⟩
  · intro i j hij hjn
    simp only [expandPerfect, List.mem_map]
    exact ⟨_, ⟨(i, j), mem_indexPairs hij hjn, rfl⟩, rfl, rfl⟩

/-- Witness for C7: a record with three languages yields three pairwise
rows, among them the `("en", "es")` pair. -/
theorem expandPerfect_spec_witness :
    (expandPerfect ⟨1, "hotel", "hotel", "en,es,fr", 3⟩).length = 3 ∧
    ∃ m ∈ expandPerfect ⟨1, "hotel", "hotel", "en,es,fr", 3⟩,
      m.lang_a = "en" ∧ m.lang_b = "es" := by
  constructor
  · have h := (expandPerfect_spec ⟨1, "hotel", "hotel", "en,es,fr", 3⟩).1
    rw [h]
    decide
  · have h := (expandPerfect_spec ⟨1, "hotel", "hotel", "en,es,fr", 3⟩).2.2 0 1
      (by decide) (by decide)
    obtain ⟨m, hm, h1, h2⟩ := h
    refine ⟨m, hm, ?_, ?_⟩
    · rw [h1]; decide
    · rw [h2]; decide

/-! C2, C10, C5: the fuzzy detector -/

theorem mem_nearRowsAtRank_elim {english : List String} {blr : String → Int → String}
    {langs : List String} {ratioFn : String → String → ℚ} {t : ℚ} {r : Nat} {row : NearRow}
    (h : row ∈ nearRowsAtRank english blr langs ratioFn t r) :
    row.rank = r ∧ 4 ≤ row.word_a.length ∧ 4 ≤ row.word_b.length ∧
    row.word_a ≠ row.word_b ∧ t < row.sim ∧ row.sim < 1 := by
  simp only [nearRowsAtRank] at h
  split at h
  · simp at h
  · split at h
    · simp at h
    · rw [List.mem_filterMap] at h
      obtain ⟨pq, _, hf⟩ := h
      split at hf
      · exact absurd hf (by simp)
      · split at hf
        · exact absurd hf (by simp)
        · split at hf
          · exact absurd hf (by simp)
          · next hne hlen hsim =>
            rw [Option.some_inj] at hf
            subst hf
            push_neg at hlen hsim
            exact ⟨rfl, hlen.1, hlen.2, hne, hsim.1, hsim.2⟩

theorem mem_find_near_elim {english : List String} {blr : String → Int → String}
    {langs : List String} {mr : Int} {ratioFn : String → String → ℚ} {t : ℚ} {row : NearRow}
    (h : row ∈ find_near_cognates english blr langs mr ratioFn t) :
    (1 ≤ row.rank ∧ (row.rank : Int) ≤ min (english.length : Int) mr) ∧
    4 ≤ row.word_a.length ∧ 4 ≤ row.word_b.length ∧
    row.word_a ≠ row.word_b ∧ t < row.sim ∧ row.sim < 1 := by
  unfold find_near_cognates at h
  rw [List.mem_flatMap] at h
  obtain ⟨r, hr, h⟩ := h
  obtain ⟨hrank, hrest⟩ := mem_nearRowsAtRank_elim h
  subst hrank
  refine ⟨?_, hrest⟩
  unfold nearRanks at hr
  rw [List.mem_range'] at hr
  obtain ⟨i, hi, hri⟩ := hr
  have hnn : (0 : Int) ≤ min (english.length : Int) mr ∨
      (min (english.length : Int) mr).toNat = 0 := by
    rcases le_or_lt 0 (min (english.length : Int) mr) with hle | hlt
    · exact Or.inl hle
    · exact Or.inr (Int.toNat_of_nonpos (le_of_lt hlt))
  constructor
  · omega
  · rcases hnn with hle | hzero
    · have := Int.toNat_of_nonneg hle
      omega
    · omega

/-- Claim C2: Every near-cognate row emitted by `find_near_cognates` at the
0.7 threshold has a raw similarity ratio strictly between 0.7 and 1.0 and
distinct words; identical pairs, and pairs whose ratio is ≤ 0.7 or ≥ 1.0,
are never emitted.  (The theorem quantifies over an arbitrary similarity
function, so it holds for `difflib`'s ratio in particular.) -/
theorem find_near_cognates_invariant (english : List String) (blr : String → Int → String)
    (langs : List String) (mr : Int) (ratioFn : String → String → ℚ) (row : NearRow)
    (h : row ∈ find_near_cognates english blr langs mr ratioFn (7/10)) :
    7/10 < row.sim ∧ row.sim < 1 ∧ row.word_a ≠ row.word_b := by
  obtain ⟨-, -, -, hne, hlo, hhi⟩ := mem_find_near_elim h
  exact ⟨hlo, hhi, hne⟩

theorem q710_eq : q710 = 7/10 := by
  rw [q710, Rat.mk'_eq_divInt, Rat.divInt_eq_div]
  norm_num

/-- Witness for C2 at a one-rank lexicon with words `"good"`/`"goad"`. -/
theorem find_near_cognates_invariant_witness :
    7/10 < q34 ∧ q34 < 1 ∧ "good" ≠ "goad" := by
  have hmem : (⟨1, "good", "en", "good", "es", "goad", q34,
      detect_delta "good".data "goad".data⟩ : NearRow) ∈
      find_near_cognates ["good"] (fun c r => if c = "es" ∧ r = 1 then "goad" else "")
        ["es"] 1 (fun _ _ => q34) q710 := by decide
  rw [q710_eq] at hmem
  exact find_near_cognates_invariant _ _ _ _ _ _ hmem

theorem round3_ge_of_gt {q : ℚ} (h : 7/10 < q) : 7/10 ≤ round3 q := by
  unfold round3
  have h1 : ((700 : ℤ) : ℚ) ≤ q * 1000 + 1/2 := by push_cast; linarith
  have h2 : (700 : ℤ) ≤ round (q * 1000) := by
    rw [round_eq]
    exact Int.le_floor.mpr h1
  have h3 : ((700 : ℤ) : ℚ) ≤ ((round (q * 1000) : ℤ) : ℚ) := by exact_mod_cast h2
  push_cast at h3 ⊢
  linarith

/-- Claim C10: Every Near row the fuzzy detector can actually produce (both
words of length ≥ 4, similarity strictly above 0.7) is classified `OK` by
the merge pipeline's audit, even after the similarity passes through the
CSV's three-decimal rounding; the manual-review branch cannot fire on
detector-produced rows. -/
theorem detector_rows_audit_ok (english : List String) (blr : String → Int → String)
    (langs : List String) (mr : Int) (ratioFn : String → String → ℚ) (row : NearRow)
    (h : row ∈ find_near_cognates english blr langs mr ratioFn (7/10)) :
    audit_logic (masterOfNear row) = "OK" := by
  obtain ⟨-, ha, hb, -, hlo, -⟩ := mem_find_near_elim h
  have hnotshort : ¬ ((masterOfNear row).word_a.length ≤ 2 ∨
      (masterOfNear row).word_b.length ≤ 2 ∨
      (masterOfNear row).similarity_score < 7/10) := by
    simp only [masterOfNear]
    push_neg
    exact ⟨by omega, by omega, round3_ge_of_gt hlo⟩
  unfold audit_logic
  rw [if_neg (by simp [masterOfNear]), if_pos (show (masterOfNear row).match_type = "Near" from rfl),
    if_neg hnotshort]

/-- Witness for C10 at the same one-rank lexicon as the C2 witness. -/
theorem detector_rows_audit_ok_witness :
    audit_logic (masterOfNear ⟨1, "good", "en", "good", "es", "goad", q34,
      detect_delta "good".data "goad".data⟩) = "OK" := by
  have hmem : (⟨1, "good", "en", "good", "es", "goad", q34,
      detect_delta "good".data "goad".data⟩ : NearRow) ∈
      find_near_cognates ["good"] (fun c r => if c = "es" ∧ r = 1 then "goad" else "")
        ["es"] 1 (fun _ _ => q34) q710 := by decide
  rw [q710_eq] at hmem
  exact detector_rows_audit_ok _ _ _ _ _ _ hmem

theorem foldl_loadStep_max (rows : List RawRow) (acc : RawData) :
    acc.max_rank ≤ (rows.foldl loadStep acc).max_rank ∧
    (∀ e ∈ rows.filterMap parsedEntry, e.2.1 ≤ (rows.foldl loadStep acc).max_rank) ∧
    ((rows.foldl loadStep acc).max_rank = acc.max_rank ∨
      ∃ e ∈ rows.filterMap parsedEntry, e.2.1 = (rows.foldl loadStep acc).max_rank) := by
  induction rows generalizing acc with
  | nil => exact ⟨le_rfl, by simp, Or.inl rfl⟩
  | cons r rest ih =>
    rw [List.foldl_cons, List.filterMap_cons]
    rcases hre : parsedEntry r with _ | e
    · have hstep : loadStep acc r = acc := by unfold loadStep; rw [hre]
      rw [hstep]
      exact ih acc
    · have hstep : (loadStep acc r).max_rank =
          if acc.max_rank < e.2.1 then e.2.1 else acc.max_rank := by
        unfold loadStep
        rw [hre]
      obtain ⟨h1, h2, h3⟩ := ih (loadStep acc r)
      have hmono : acc.max_rank ≤ (loadStep acc r).max_rank := by
        rw [hstep]; split <;> omega
      have hee : e.2.1 ≤ (loadStep acc r).max_rank := by
        rw [hstep]; split <;> omega
      refine ⟨le_trans hmono h1, ?_, ?_⟩
      · intro e' he'
        rw [List.mem_cons] at he'
        rcases he' with he' | he'
        · subst he'
          exact le_trans hee h1
        · exact h2 e' he'
      · rcases h3 with h3 | ⟨e', he', hmax⟩
        · rw [h3, hstep]
          split
          · exact Or.inr ⟨e, List.mem_cons_self _ _, rfl⟩
          · exact Or.inl rfl
        · exact Or.inr ⟨e', List.mem_cons_of_mem _ he', hmax⟩

/-- Claim C5 (amended): `find_near_cognates` iterates over the ranks 1 to
`min(length(reference list), max_rank)`, where `max_rank`, as returned by
`load_raw_data`, is the maximum rank observed across all valid entries of
the raw data — not the minimum over languages of per-language maxima:
every valid entry's rank is ≤ `max_rank`, `max_rank` is attained by some
entry (or the data has none), and every emitted row's rank lies in the
iterated interval. -/
theorem near_iteration_spec (rows : List RawRow) (english : List String)
    (ratioFn : String → String → ℚ) (t : ℚ) :
    0 ≤ (load_raw_data rows).max_rank ∧
    (∀ e ∈ rows.filterMap parsedEntry, e.2.1 ≤ (load_raw_data rows).max_rank) ∧
    ((load_raw_data rows).max_rank = 0 ∨
      ∃ e ∈ rows.filterMap parsedEntry, e.2.1 = (load_raw_data rows).max_rank) ∧
    (∀ row ∈ find_near_cognates english (load_raw_data rows).by_lang_rank
        (load_raw_data rows).languages (load_raw_data rows).max_rank ratioFn t,
      1 ≤ row.rank ∧ (row.rank : Int) ≤ min (english.length : Int)
        (load_raw_data rows).max_rank) := by
  obtain ⟨h1, h2, h3⟩ := foldl_loadStep_max rows ⟨fun _ _ => "", [], 0⟩
  exact ⟨h1, h2, h3, fun row hrow => (mem_find_near_elim hrow).1⟩

/-- Witness for C5 (amended) at `exRawRows`. -/
theorem near_iteration_spec_witness :
    ("es", (2 : Int), "perro") ∈ exRawRows.filterMap parsedEntry ∧
    (2 : Int) ≤ (load_raw_data exRawRows).max_rank :=
  ⟨by decide,
    (near_iteration_spec exRawRows ["aaaa", "bbbb"] (fun _ _ => 3/4) (7/10)).2.1
      ("es", (2 : Int), "perro") (by decide)⟩

/-- Counterexample for C5 as stated: on `exRawRows` the per-language
maximum ranks are 2 (es) and 1 (fr), so the spec's "minimum of per-language
maxima" is 1, yet `load_raw_data` returns 2 and the detector iterates (and
emits a row at) rank 2, outside the claimed range. -/
theorem near_iteration_counterexample :
    (load_raw_data exRawRows).max_rank = 2 ∧
    maxRankSpec exRawRows = 1 ∧
    nearRanks ["aaaa", "bbbb"] (load_raw_data exRawRows).max_rank = [1, 2] ∧
    nearRanks ["aaaa", "bbbb"] (maxRankSpec exRawRows) = [1] ∧
    ∃ row ∈ find_near_cognates ["aaaa", "bbbb"] (load_raw_data exRawRows).by_lang_rank
        (load_raw_data exRawRows).languages (load_raw_data exRawRows).max_rank
        (fun _ _ => q34) (7/10),
      row.rank = 2 := by
  refine ⟨by decide, by decide, by decide, by decide, ?_⟩
  rw [← q710_eq]
  decide

/-! C3, C4: the perfect-match detector -/

theorem getCodes_addLang_same (wl : List (String × List String)) (w c : String) :
    getCodes (addLang wl w c) w = getCodes wl w ++ [c] := by
  induction wl with
  | nil => simp [addLang, getCodes]
  | cons wc rest ih =>
    obtain ⟨w', cs⟩ := wc
    by_cases h : w' = w
    · subst h
      simp [addLang, getCodes]
    · simp only [addLang, if_neg h, getCodes]
      exact ih

theorem getCodes_addLang_ne (wl : List (String × List String)) {w w' : String} (c : String)
    (h : w' ≠ w) : getCodes (addLang wl w' c) w = getCodes wl w := by
  induction wl with
  | nil => simp [addLang, getCodes, h]
  | cons wc rest ih =>
    obtain ⟨w'', cs⟩ := wc
    by_cases h2 : w'' = w'
    · subst h2
      simp [addLang, getCodes, h]
    · simp only [addLang, if_neg h2, getCodes]
      by_cases h3 : w'' = w
      · rw [if_pos h3, if_pos h3]
      · rw [if_neg h3, if_neg h3, ih]

theorem getCodes_perfectStep_mono {blr : String → Int → String} {rank : Nat}
    {wl : List (String × List String)} {w x : String} (p : String × String)
    (h : x ∈ getCodes wl w) : x ∈ getCodes (perfectStep blr rank wl p) w := by
  simp only [perfectStep]
  split
  · exact h
  · split
    · exact h
    · by_cases hw : pyStrip (blr p.1 (rank : Int)) = w
      · rw [hw, getCodes_addLang_same]
        exact List.mem_append_left _ h
      · rw [getCodes_addLang_ne _ _ hw]
        exact h

theorem getCodes_foldl_mono {blr : String → Int → String} {rank : Nat}
    (l : List (String × String)) (wl : List (String × List String)) {w x : String}
    (h : x ∈ getCodes wl w) :
    x ∈ getCodes (l.foldl (perfectStep blr rank) wl) w := by
  induction l generalizing wl with
  | nil => exact h
  | cons p rest ih =>
    rw [List.foldl_cons]
    exact ih _ (getCodes_perfectStep_mono p h)

theorem getCodes_foldl_added {blr : String → Int → String} {rank : Nat}
    {l : List (String × String)} {p : String × String} (hp : p ∈ l) (hen : p.1 ≠ "en")
    {w : String} (hw : pyStrip (blr p.1 (rank : Int)) = w) (hne : w ≠ "")
    (wl : List (String × List String)) :
    p.1 ∈ getCodes (l.foldl (perfectStep blr rank) wl) w := by
  induction l generalizing wl with
  | nil => cases hp
  | cons q rest ih =>
    rw [List.foldl_cons]
    rcases List.mem_cons.mp hp with rfl | hp'
    · apply getCodes_foldl_mono
      simp only [perfectStep, if_neg hen]
      rw [hw, if_neg hne, getCodes_addLang_same]
      exact List.mem_append_right _ (List.mem_singleton_self _)
    · exact ih hp' _

theorem getCodes_mem : ∀ (wl : List (String × List String)) (w : String),
    getCodes wl w ≠ [] → (w, getCodes wl w) ∈ wl
  | [], w, h => absurd rfl h
  | wc :: rest, w, h => by
    obtain ⟨w1, cs⟩ := wc
    by_cases hw : w1 = w
    · subst hw
      simp only [getCodes, if_pos rfl] at h ⊢
      exact List.mem_cons_self _ _
    · simp only [getCodes, if_neg hw] at h ⊢
      exact List.mem_cons_of_mem _ (getCodes_mem rest w h)

theorem two_le_length_of_two_mem {l : List String} {a b : String} (hab : a ≠ b)
    (ha : a ∈ l) (hb : b ∈ l) : 2 ≤ l.length := by
  rcases l with _ | ⟨x, _ | ⟨y, rest⟩⟩
  · cases ha
  · rw [List.mem_singleton] at ha hb
    exact absurd (ha.trans hb.symm) hab
  · simp only [List.length_cons]
    omega

/-- Claim C3: For every rank within the reference-list bound (whose reference
word is non-blank, which the loader guarantees) and every two distinct
target languages producing an identical non-empty word at that rank, the
perfect-match detector emits a record for that rank whose language set
contains both languages. -/
theorem perfect_detector_complete (english : List String) (blr : String → Int → String)
    (r : Nat) (a b w : String)
    (hr1 : 1 ≤ r) (hr2 : r ≤ english.length)
    (hem : pyStrip (english.getD (r - 1) "") ≠ "")
    (ha : a ∈ LANGUAGES.map Prod.fst) (hb : b ∈ LANGUAGES.map Prod.fst)
    (hab : a ≠ b)
    (hwa : wordAtRank english blr a r = w)
    (hwb : wordAtRank english blr b r = w)
    (hw : w ≠ "") :
    ∃ rec ∈ find_universal_perfect_cognates english blr,
      rec.rank = r ∧ a ∈ rec.languages_found ∧ b ∈ rec.languages_found := by
  have hkey : ∀ c ∈ LANGUAGES.map Prod.fst, wordAtRank english blr c r = w →
      c ∈ getCodes (wordLangsAtRank blr r (pyStrip (english.getD (r - 1) ""))) w := by
    intro c hc hwc
    unfold wordLangsAtRank
    by_cases hcen : c = "en"
    · subst hcen
      unfold wordAtRank at hwc
      rw [if_pos rfl] at hwc
      apply getCodes_foldl_mono
      rw [hwc]
      simp [addLang, getCodes]
    · obtain ⟨p, hp, hp1⟩ := List.mem_map.mp hc
      unfold wordAtRank at hwc
      rw [if_neg hcen] at hwc
      rw [← hp1] at hcen hwc ⊢
      exact getCodes_foldl_added hp hcen hwc hw _
  have hga := hkey a ha hwa
  have hgb := hkey b hb hwb
  have hcs := getCodes_mem _ w (List.ne_nil_of_mem hga)
  have hlen := two_le_length_of_two_mem hab hga hgb
  refine ⟨⟨r, pyStrip (english.getD (r - 1) ""), w,
    (getCodes (wordLangsAtRank blr r (pyStrip (english.getD (r - 1) ""))) w).insertionSort strLe,
    (getCodes (wordLangsAtRank blr r (pyStrip (english.getD (r - 1) ""))) w).length⟩,
    ?_, rfl, ?_, ?_⟩
  · unfold find_universal_perfect_cognates
    rw [List.mem_flatMap]
    refine ⟨r, ?_, ?_⟩
    · rw [List.mem_range']
      exact ⟨r - 1, by omega, by omega⟩
    · simp only [perfectRowsAtRank, if_neg hem]
      rw [List.mem_filterMap]
      refine ⟨(w, getCodes (wordLangsAtRank blr r (pyStrip (english.getD (r - 1) ""))) w),
        hcs, ?_⟩
      rw [if_neg (show ¬ ((getCodes (wordLangsAtRank blr r
        (pyStrip (english.getD (r - 1) ""))) w).length < 2) by omega)]
  · rw [List.mem_insertionSort]
    exact hga
  · rw [List.mem_insertionSort]
    exact hgb

/-- Witness for C3: a one-rank lexicon where `"en"` and `"es"` share the
word `"hotel"`. -/
theorem perfect_detector_complete_witness :
    ∃ rec ∈ find_universal_perfect_cognates ["hotel"]
        (fun c r => if c = "es" ∧ r = 1 then "hotel" else ""),
      rec.rank = 1 ∧ "en" ∈ rec.languages_found ∧ "es" ∈ rec.languages_found :=
  perfect_detector_complete ["hotel"] (fun c r => if c = "es" ∧ r = 1 then "hotel" else "")
    1 "en" "es" "hotel" (by decide) (by decide) (by decide) (by decide) (by decide)
    (by decide) (by decide) (by decide) (by decide)

theorem mem_perfectRowsAtRank_rank {english : List String} {blr : String → Int → String}
    {r : Nat} {row : PerfectRow} (h : row ∈ perfectRowsAtRank english blr r) :
    row.rank = r := by
  simp only [perfectRowsAtRank] at h
  split at h
  · simp at h
  · rw [List.mem_filterMap] at h
    obtain ⟨wc, _, hf⟩ := h
    split at hf
    · exact absurd hf (by simp)
    · rw [Option.some_inj] at hf
      subst hf
      rfl

theorem pairwise_lt_range' : ∀ (s n : Nat), (List.range' s n).Pairwise (· < ·)
  | _, 0 => List.Pairwise.nil
  | s, n + 1 => by
    rw [List.range'_succ]
    constructor
    · intro y hy
      rw [List.mem_range'] at hy
      obtain ⟨i, _, rfl⟩ := hy
      omega
    · exact pairwise_lt_range' (s + 1) n

/-- The concrete lexicon used to refute C4's within-rank ordering: at rank
1 the reference word is `"zzzz"` (shared with `es`) and `fr`/`it` share
`"aaaa"`. -/
def exBlr4 : String → Int → String := fun c r =>
  if c = "es" ∧ r = 1 then "zzzz"
  else if c = "fr" ∧ r = 1 then "aaaa"
  else if c = "it" ∧ r = 1 then "aaaa"
  else ""

/-- Counterexample for C4 as stated: both emitted records are at rank 1,
but their words appear as `["zzzz", "aaaa"]` — dictionary insertion order
(the reference word first), not lexicographic order. -/
theorem perfect_order_counterexample :
    ((find_universal_perfect_cognates ["zzzz"] exBlr4).map fun p => (p.rank, p.word)) =
      [(1, "zzzz"), (1, "aaaa")] ∧
    ¬ ((find_universal_perfect_cognates ["zzzz"] exBlr4).map fun p => p.word).Pairwise strLe := by
  constructor
  · decide
  · decide

/-- **C4 (amended).** The perfect-match detector's output is ordered
rank-ascending; within a single rank the records follow the grouping
dictionary's insertion order (the reference word's record first, then
words in the order of their first contributing language), which is not in
general lexicographic by word. -/
theorem perfect_output_rank_sorted (english : List String) (blr : String → Int → String) :
    (find_universal_perfect_cognates english blr).Pairwise fun p q => p.rank ≤ q.rank := by
  unfold find_universal_perfect_cognates
  rw [List.pairwise_flatMap]
  constructor
  · intro r _
    apply List.pairwise_of_forall_mem_list
    intro p hp q hq
    rw [mem_perfectRowsAtRank_rank hp, mem_perfectRowsAtRank_rank hq]
  · apply List.Pairwise.imp ?_ (pairwise_lt_range' 1 english.length)
    intro r1 r2 hlt x hx y hy
    rw [mem_perfectRowsAtRank_rank hx, mem_perfectRowsAtRank_rank hy]
    omega

/-! C1: deduplication and precedence in the master table -/

theorem dedup_key_not_seen {α β : Type} [DecidableEq β] (key : α → β) :
    ∀ (l : List α) (seen : List β) {x : α}, x ∈ dedupKeepFirst key l seen → key x ∉ seen
  | [], _, _, h => absurd h (List.not_mem_nil _)
  | y :: ys, seen, x, h => by
    rw [dedupKeepFirst] at h
    split at h
    · exact dedup_key_not_seen key ys seen h
    · next hns =>
      rcases List.mem_cons.mp h with rfl | h2
      · exact hns
      · have hni := dedup_key_not_seen key ys _ h2
        intro hmem
        exact hni (List.mem_cons_of_mem _ hmem)

theorem dedup_nodup_keys {α β : Type} [DecidableEq β] (key : α → β) :
    ∀ (l : List α) (seen : List β), ((dedupKeepFirst key l seen).map key).Nodup
  | [], _ => by simp [dedupKeepFirst]
  | y :: ys, seen => by
    rw [dedupKeepFirst]
    split
    · exact dedup_nodup_keys key ys seen
    · rw [List.map_cons, List.nodup_cons]
      refine ⟨?_, dedup_nodup_keys key ys _⟩
      intro hmem
      rw [List.mem_map] at hmem
      obtain ⟨z, hz, hkz⟩ := hmem
      have hni := dedup_key_not_seen key ys _ hz
      exact hni (by rw [hkz]; exact List.mem_cons_self _ _)

theorem mem_of_mem_dedup {α β : Type} [DecidableEq β] (key : α → β) :
    ∀ (l : List α) (seen : List β) {x : α}, x ∈ dedupKeepFirst key l seen → x ∈ l
  | [], _, _, h => absurd h (List.not_mem_nil _)
  | y :: ys, seen, x, h => by
    rw [dedupKeepFirst] at h
    split at h
    · exact List.mem_cons_of_mem _ (mem_of_mem_dedup key ys seen h)
    · rcases List.mem_cons.mp h with rfl | h2
      · exact List.mem_cons_self _ _
      · exact List.mem_cons_of_mem _ (mem_of_mem_dedup key ys _ h2)

theorem dedup_exists_key {α β : Type} [DecidableEq β] (key : α → β) :
    ∀ (l : List α) (seen : List β) {p : α}, p ∈ l → key p ∉ seen →
      ∃ x ∈ dedupKeepFirst key l seen, key x = key p
  | [], _, _, hp, _ => absurd hp (List.not_mem_nil _)
  | y :: ys, seen, p, hp, hns => by
    rw [dedupKeepFirst]
    split
    · next hseen =>
      rcases List.mem_cons.mp hp with rfl | h2
      · exact absurd hseen hns
      · exact dedup_exists_key key ys seen h2 hns
    · next hseen =>
      by_cases hkp : key p = key y
      · exact ⟨y, List.mem_cons_self _ _, hkp.symm⟩
      · rcases List.mem_cons.mp hp with rfl | h2
        · exact absurd rfl hkp
        · obtain ⟨x, hx, hkx⟩ := dedup_exists_key key ys (key y :: seen) h2 (by
            intro hmem
            rcases List.mem_cons.mp hmem with h | h
            · exact hkp h
            · exact hns h)
          exact ⟨x, List.mem_cons_of_mem _ hx, hkx⟩

theorem dedup_first_occurrence {α β : Type} [DecidableEq β] (key : α → β) :
    ∀ (l : List α) (seen : List β) {x : α}, x ∈ dedupKeepFirst key l seen →
      ∃ l1 l2, l = l1 ++ x :: l2 ∧ ∀ y ∈ l1, key y = key x → key y ∈ seen
  | [], _, _, h => absurd h (List.not_mem_nil _)
  | y :: ys, seen, x, h => by
    rw [dedupKeepFirst] at h
    split at h
    · next hseen =>
      obtain ⟨l1, l2, heq, hfirst⟩ := dedup_first_occurrence key ys seen h
      refine ⟨y :: l1, l2, by rw [heq, List.cons_append], ?_⟩
      intro z hz hkz
      rcases List.mem_cons.mp hz with rfl | h2
      · exact hseen
      · exact hfirst z h2 hkz
    · next hseen =>
      rcases List.mem_cons.mp h with rfl | h2
      · exact ⟨[], ys, rfl, by simp⟩
      · obtain ⟨l1, l2, heq, hfirst⟩ := dedup_first_occurrence key ys (key y :: seen) h2
        have hxny : key x ≠ key y := by
          have hni := dedup_key_not_seen key ys (key y :: seen) h2
          intro hc
          exact hni (by rw [hc]; exact List.mem_cons_self _ _)
        refine ⟨y :: l1, l2, by rw [heq, List.cons_append], ?_⟩
        intro z hz hkz
        rcases List.mem_cons.mp hz with rfl | h3
        · exact absurd hkz.symm hxny
        · have hmem := hfirst z h3 hkz
          rcases List.mem_cons.mp hmem with hkk | hmem2
          · have : key x = key y := by rw [← hkz, hkk]
            exact absurd this hxny
          · exact hmem2

theorem combined_match_type {perfect : List PerfectCsvRow} {near : List NearCsvRow}
    {x : MRow} (hx : x ∈ combinedRows perfect near) :
    x.match_type = "Perfect" ∨ x.match_type = "Near" := by
  rw [combinedRows, List.mem_append] at hx
  rcases hx with hx | hx
  · rw [List.mem_flatMap] at hx
    obtain ⟨pc, _, hx⟩ := hx
    simp only [expandPerfect, List.mem_map] at hx
    obtain ⟨ij, _, rfl⟩ := hx
    exact Or.inl rfl
  · rw [List.mem_map] at hx
    obtain ⟨nc, _, rfl⟩ := hx
    exact Or.inr rfl

theorem audited_match_type {perfect : List PerfectCsvRow} {near : List NearCsvRow}
    {x : MRow} (hx : x ∈ auditedRows perfect near) :
    x.match_type = "Perfect" ∨ x.match_type = "Near" := by
  rw [auditedRows, List.mem_map] at hx
  obtain ⟨y, hy, rfl⟩ := hx
  have h := combined_match_type hy
  exact h

theorem mem_audited_of_combined {perfect : List PerfectCsvRow} {near : List NearCsvRow}
    {p : MRow} (hp : p ∈ combinedRows perfect near) :
    ∃ p' ∈ auditedRows perfect near, pairKey p' = pairKey p ∧ p'.match_type = p.match_type :=
  ⟨{p with audit_status := audit_logic p}, List.mem_map_of_mem _ hp, rfl, rfl⟩

/-- Claim C1: In the master table produced by `recreate_master_cognate`, at
most one row exists per pair key (sorted unordered language pair plus
English reference); and whenever the combined inputs contain both a
Perfect row and a Near row for the same pair key, every retained row for
that key (and one is retained) has `Match_Type = "Perfect"`. -/
theorem recreate_master_spec (perfect : List PerfectCsvRow) (near : List NearCsvRow) :
    ((recreate_master_cognate perfect near).map pairKey).Nodup ∧
    ∀ k : String,
      (∃ p ∈ combinedRows perfect near, p.match_type = "Perfect" ∧ pairKey p = k) →
      (∃ q ∈ combinedRows perfect near, q.match_type = "Near" ∧ pairKey q = k) →
      ((∃ x ∈ recreate_master_cognate perfect near, pairKey x = k) ∧
       ∀ x ∈ recreate_master_cognate perfect near,
         pairKey x = k → x.match_type = "Perfect") := by
  have hperm : List.Perm (recreate_master_cognate perfect near)
      (dedupKeepFirst pairKey (sortedByMatchType perfect near) []) :=
    List.perm_insertionSort _ _
  have hpermsort : List.Perm (sortedByMatchType perfect near) (auditedRows perfect near) :=
    List.perm_insertionSort _ _
  constructor
  · have hnodup := dedup_nodup_keys pairKey (sortedByMatchType perfect near) []
    exact ((hperm.map pairKey).nodup_iff).mpr hnodup
  · rintro k ⟨p, hp, hpt, hpk⟩ ⟨q, hq, hqt, hqk⟩
    obtain ⟨p', hp', hpk', hpt'⟩ := mem_audited_of_combined hp
    have hp'sorted : p' ∈ sortedByMatchType perfect near := hpermsort.mem_iff.mpr hp'
    constructor
    · obtain ⟨x, hx, hkx⟩ :=
        dedup_exists_key pairKey (sortedByMatchType perfect near) [] hp'sorted
          (List.not_mem_nil _)
      refine ⟨x, hperm.mem_iff.mpr hx, ?_⟩
      rw [hkx, hpk', hpk]
    · intro x hx hxk
      have hxd : x ∈ dedupKeepFirst pairKey (sortedByMatchType perfect near) [] :=
        hperm.mem_iff.mp hx
      by_contra hxnp
      have hxs : x ∈ sortedByMatchType perfect near :=
        mem_of_mem_dedup pairKey _ [] hxd
      have hxnear : x.match_type = "Near" :=
        (audited_match_type (hpermsort.mem_iff.mp hxs)).resolve_left hxnp
      obtain ⟨l1, l2, hsplit, hfirst⟩ :=
        dedup_first_occurrence pairKey (sortedByMatchType perfect near) [] hxd
      have hp'2 := hp'sorted
      rw [hsplit] at hp'2
      rcases List.mem_append.mp hp'2 with h1 | h2
      · have : pairKey p' ∈ ([] : List String) := hfirst p' h1 (by rw [hpk', hpk, hxk])
        exact absurd this (List.not_mem_nil _)
      · rcases List.mem_cons.mp h2 with heq | h3
        · rw [heq] at hpt'
          rw [hpt] at hpt'
          exact hxnp hpt'
        · have hsorted : (sortedByMatchType perfect near).Pairwise mtGe :=
            List.sorted_insertionSort mtGe (auditedRows perfect near)
          rw [hsplit] at hsorted
          have hrel : mtGe x p' :=
            (List.pairwise_cons.mp (List.pairwise_append.mp hsorted).2.1).1 p' h3
          have hle : strLe p'.match_type x.match_type := hrel
          rw [hpt', hpt, hxnear] at hle
          exact absurd hle (by decide)

/-- A one-row Perfect table (`es`/`pt` share `"agua"` for `"water"`). -/
def exPerfectCsv : List PerfectCsvRow := [⟨1, "water", "agua", "es,pt", 2⟩]

/-- A Near table whose single row collides with the Perfect pair key
`es-pt-water`. -/
def exNearCsv : List NearCsvRow :=
  [⟨1, "water", "pt", "agua", "es", "aguas", q34, "delta: '' vs 's'"⟩]

/-- Witness for C1: with a Perfect and a Near input row for the same pair
key, the key survives and every retained row for it is Perfect. -/
theorem recreate_master_spec_witness :
    (∃ x ∈ recreate_master_cognate exPerfectCsv exNearCsv, pairKey x = "es-pt-water") ∧
    ∀ x ∈ recreate_master_cognate exPerfectCsv exNearCsv,
      pairKey x = "es-pt-water" → x.match_type = "Perfect" :=
  (recreate_master_spec exPerfectCsv exNearCsv).2 "es-pt-water" (by decide) (by decide)

end Cognate
